import Mathlib

/-!
Verification development for the relevance-feedback query-refinement system
(variants main.py, wonjoon.py, joann.py, joann-2.py, joann-3.py, joann-4.py).

The shallow embedding models:
  - the tokenizer (Python re.findall of word-character runs over the
    lower-cased text, ASCII fragment),
  - search results (title, snippet, link, optional fileFormat),
  - Python Counter values as association lists in first-seen key order,
  - Counter.most_common as a stable descending sort (Python sorted is
    stable, so equal counts keep insertion order) followed by take,
  - the per-variant scoring, selection and loop-step logic.

Machine floats of the Python source are modelled as exact rationals where
the source computes only field operations (joann.py, joann-3.py) and as
real numbers where it uses math.log (joann-2.py, joann-4.py).
-/

namespace QueryRefine

/-- Search result record: the fields of a Google custom-search item that the
programs read.  fileFormat is present only on non-HTML results; Python
result.get reads it as None when the key is absent. -/
structure Result where
  link : String
  title : String
  snippet : String
  fileFormat : Option String
deriving DecidableEq

/-- Document text used by every variant: title + " " + snippet. -/
def content (r : Result) : String := r.title ++ " " ++ r.snippet

/-- Python regex word character (ASCII fragment of the \w class). -/
def isWordChar (c : Char) : Bool := c.isAlphanum || c == '_'

/-- str.lower, ASCII fragment, written over the character list so that it
reduces definitionally. -/
def lowerStr (s : String) : String := String.mk (s.data.map Char.toLower)

/-- str.strip: drop leading and trailing whitespace. -/
def trimStr (s : String) : String :=
  String.mk (((s.data.dropWhile Char.isWhitespace).reverse.dropWhile
    Char.isWhitespace).reverse)

/-- sep.join of Python, over a list of strings. -/
def joinSep (sep : String) : List String → String
  | [] => ""
  | [x] => x
  | x :: y :: xs => x ++ sep ++ joinSep sep (y :: xs)

/-- str.split on the period character, keeping empty pieces, as Python
split with a literal separator does. -/
def splitDotAux : List Char → List Char → List (List Char)
  | [], cur => [cur.reverse]
  | c :: cs, cur =>
    if c == '.' then cur.reverse :: splitDotAux cs [] else splitDotAux cs (c :: cur)

def splitDot (s : String) : List String :=
  (splitDotAux s.data []).map (fun l => String.mk l)

/-- Accumulating scan producing maximal runs of word characters; cur holds
the current run reversed. -/
def tokenizeAux : List Char → List Char → List (List Char)
  | [], cur => if cur = [] then [] else [cur.reverse]
  | c :: cs, cur =>
    if isWordChar c then tokenizeAux cs (c :: cur)
    else if cur = [] then tokenizeAux cs [] else cur.reverse :: tokenizeAux cs []

/-- Tokenizer: re.findall of word-character runs applied to s.lower(), as in
every variant's original_keywords and document-term extraction. -/
def tokenize (s : String) : List String :=
  (tokenizeAux (lowerStr s).data []).map (fun l => String.mk l)

/-- Lookup in an association list with a default, modelling dict/Counter
subscript access. -/
def getVal {β : Type} (l : List (String × β)) (t : String) (d : β) : β :=
  match l.find? (fun p => p.1 == t) with
  | some p => p.2
  | none => d

/-- Counter update: add x to the entry for key t, inserting the key at the
end when absent, exactly as Python dict insertion order behaves. -/
def bump {β : Type} [Add β] : List (String × β) → String → β → List (String × β)
  | [], t, x => [(t, x)]
  | p :: ps, t, x => if p.1 == t then (p.1, p.2 + x) :: ps else p :: bump ps t x

/-- Key list of an association list, in insertion order. -/
def keys {β : Type} (l : List (String × β)) : List String := l.map (fun p => p.1)

/-- Counting a stream of words into an existing table, modelling
Counter.update on each word in order. -/
def counterFrom (acc : List (String × ℕ)) (ws : List String) : List (String × ℕ) :=
  ws.foldl (fun a w => bump a w 1) acc

/-- Counter built from a word stream, first-seen key order. -/
def counterOf (ws : List String) : List (String × ℕ) := counterFrom [] ws

section CounterLemmas

variable {β : Type}

theorem getVal_bump [AddCommMonoid β] (l : List (String × β)) (t u : String) (x : β) :
    getVal (bump l t x) u 0 = getVal l u 0 + (if u = t then x else 0) := by
  induction l with
  | nil =>
    by_cases h : u = t
    · subst h
      simp [bump, getVal, List.find?]
    · have hb : (t == u) = false := by
        simp only [beq_eq_false_iff_ne, ne_eq]
        exact fun hc => h hc.symm
      simp [bump, getVal, List.find?, hb, h]
  | cons p ps ih =>
    by_cases hp : p.1 = t
    · have hb : (p.1 == t) = true := by simpa [beq_iff_eq] using hp
      by_cases hu : p.1 = u
      · have hb2 : (p.1 == u) = true := by simpa [beq_iff_eq] using hu
        simp [bump, hb, getVal, List.find?, hb2, hu.symm.trans hp]
      · have hb2 : (p.1 == u) = false := by simpa [beq_eq_false_iff_ne] using hu
        have hut : ¬u = t := fun hc => hu (hp.trans hc.symm)
        simp [bump, hb, getVal, List.find?, hb2, hut]
    · have hb : (p.1 == t) = false := by simpa [beq_eq_false_iff_ne] using hp
      by_cases hu : p.1 = u
      · have hb2 : (p.1 == u) = true := by simpa [beq_iff_eq] using hu
        have hut : ¬u = t := fun hc => hp (hu.trans hc)
        simp [bump, hb, getVal, List.find?, hb2, hut]
      · have hb2 : (p.1 == u) = false := by simpa [beq_eq_false_iff_ne] using hu
        simpa [bump, hb, getVal, List.find?, hb2] using ih

theorem keys_bump [Add β] (l : List (String × β)) (t : String) (x : β) :
    keys (bump l t x) = if t ∈ keys l then keys l else keys l ++ [t] := by
  induction l with
  | nil => simp [bump, keys]
  | cons p ps ih =>
    by_cases hp : p.1 = t
    · have hb : (p.1 == t) = true := by simpa [beq_iff_eq] using hp
      simp [bump, hb, keys, hp]
    · have hb : (p.1 == t) = false := by simpa [beq_eq_false_iff_ne] using hp
      have hne : ¬t = p.1 := fun hc => hp hc.symm
      by_cases hm : t ∈ keys ps
      · simp only [bump, hb, if_neg, keys, List.map_cons] at *
        simp [ih, hm, hne, keys]
      · simp only [bump, hb, if_neg, keys, List.map_cons] at *
        simp [ih, hm, hne, keys]

theorem mem_keys_bump [Add β] {l : List (String × β)} {t u : String} {x : β} :
    u ∈ keys (bump l t x) ↔ u ∈ keys l ∨ u = t := by
  rw [keys_bump]
  by_cases hm : t ∈ keys l
  · simp only [hm, if_pos]
    constructor
    · exact Or.inl
    · rintro (h | rfl)
      · exact h
      · exact hm
  · simp [hm]

theorem nodup_keys_bump [Add β] {l : List (String × β)} (t : String) (x : β)
    (h : (keys l).Nodup) : (keys (bump l t x)).Nodup := by
  rw [keys_bump]
  by_cases hm : t ∈ keys l
  · simpa [hm] using h
  · simp only [hm, if_neg, List.nodup_append, not_false_iff]
    refine ⟨h, List.nodup_singleton t, ?_⟩
    intro a ha hb
    simp only [List.mem_singleton] at hb
    exact hm (hb ▸ ha)

theorem getVal_counterFrom (acc : List (String × ℕ)) (ws : List String) (t : String) :
    getVal (counterFrom acc ws) t 0 = getVal acc t 0 + ws.count t := by
  induction ws generalizing acc with
  | nil => simp [counterFrom]
  | cons w rest ih =>
    have h1 : counterFrom acc (w :: rest) = counterFrom (bump acc w 1) rest := rfl
    rw [h1, ih, getVal_bump, List.count_cons]
    by_cases h : t = w
    · simp [h, Nat.add_assoc, Nat.add_comm]
    · have hb : (w == t) = false := by
        simp only [beq_eq_false_iff_ne, ne_eq]
        exact fun hc => h hc.symm
      simp [h, hb]

theorem getVal_counterOf (ws : List String) (t : String) :
    getVal (counterOf ws) t 0 = ws.count t := by
  have h := getVal_counterFrom [] ws t
  simpa [counterOf, getVal] using h

theorem mem_keys_counterFrom {acc : List (String × ℕ)} {ws : List String} {t : String} :
    t ∈ keys (counterFrom acc ws) ↔ t ∈ keys acc ∨ t ∈ ws := by
  induction ws generalizing acc with
  | nil => simp [counterFrom]
  | cons w rest ih =>
    have h1 : counterFrom acc (w :: rest) = counterFrom (bump acc w 1) rest := rfl
    rw [h1, ih]
    constructor
    · rintro (h | h)
      · rcases mem_keys_bump.1 h with h2 | rfl
        · exact Or.inl h2
        · exact Or.inr (List.mem_cons_self _ _)
      · exact Or.inr (List.mem_cons_of_mem _ h)
    · rintro (h | h)
      · exact Or.inl (mem_keys_bump.2 (Or.inl h))
      · rcases List.mem_cons.1 h with rfl | h2
        · exact Or.inl (mem_keys_bump.2 (Or.inr rfl))
        · exact Or.inr h2

theorem mem_keys_counterOf {ws : List String} {t : String} :
    t ∈ keys (counterOf ws) ↔ t ∈ ws := by
  have h : t ∈ keys (counterFrom [] ws) ↔ t ∈ keys ([] : List (String × ℕ)) ∨ t ∈ ws :=
    mem_keys_counterFrom
  simpa [counterOf, keys] using h

theorem nodup_keys_counterFrom {acc : List (String × ℕ)} {ws : List String}
    (h : (keys acc).Nodup) : (keys (counterFrom acc ws)).Nodup := by
  induction ws generalizing acc with
  | nil => simpa [counterFrom] using h
  | cons w rest ih => exact ih (nodup_keys_bump w 1 h)

theorem nodup_keys_counterOf (ws : List String) : (keys (counterOf ws)).Nodup :=
  nodup_keys_counterFrom (by simp [keys])

end CounterLemmas

/-! Counter.most_common: Python sorts the items by count descending; the
sort is stable, so equal counts keep insertion (first-seen) order.  This is
exactly insertion sort with the relation "left count at least right count",
which places each element before the first strictly smaller one. -/

/-- Ordering used by most_common: a precedes b when b's count does not
exceed a's. -/
abbrev scoreGE {β : Type} [LinearOrder β] (a b : String × β) : Prop := b.2 ≤ a.2

instance {β : Type} [LinearOrder β] : IsTotal (String × β) scoreGE :=
  ⟨fun a b => le_total b.2 a.2⟩

instance {β : Type} [LinearOrder β] : IsTrans (String × β) scoreGE :=
  ⟨fun _ _ _ hab hbc => le_trans hbc hab⟩

/-- Stable descending sort by count, as Python sorted with reverse order on
the count key. -/
def sortDesc {β : Type} [LinearOrder β] (l : List (String × β)) : List (String × β) :=
  l.insertionSort scoreGE

/-- Counter.most_common k: the first k items of the stable descending
sort. -/
def mostCommon {β : Type} [LinearOrder β] (k : ℕ) (l : List (String × β)) :
    List (String × β) :=
  (sortDesc l).take k

section SortLemmas

variable {β : Type} [LinearOrder β]

theorem sortDesc_perm (l : List (String × β)) : List.Perm (sortDesc l) l :=
  List.perm_insertionSort _ _

theorem sortDesc_sorted (l : List (String × β)) : (sortDesc l).Sorted scoreGE :=
  List.sorted_insertionSort _ _

theorem mostCommon_subset {k : ℕ} {l : List (String × β)} {p : String × β}
    (h : p ∈ mostCommon k l) : p ∈ l :=
  (sortDesc_perm l).mem_iff.1 (List.take_subset _ _ h)

/-- Every element of the counter that is not selected has a count at most
that of every selected element: most_common picks a maximal-count set. -/
theorem mostCommon_le {k : ℕ} {l : List (String × β)} {u p : String × β}
    (hu : u ∈ l) (hun : u ∉ mostCommon k l) (hp : p ∈ mostCommon k l) :
    u.2 ≤ p.2 := by
  have hu2 : u ∈ sortDesc l := (sortDesc_perm l).mem_iff.2 hu
  have hsplit : u ∈ (sortDesc l).take k ++ (sortDesc l).drop k := by
    rw [List.take_append_drop]
    exact hu2
  rcases List.mem_append.1 hsplit with h | h
  · exact absurd h hun
  · exact (sortDesc_sorted l).rel_of_mem_take_of_mem_drop hp h

/-- Stability: for every count value, the sorted list restricted to that
count equals the original list restricted to it, so ties keep the
first-encountered order. -/
theorem sortDesc_filter_stable (l : List (String × β)) (s : β) :
    (sortDesc l).filter (fun p => decide (p.2 = s)) =
      l.filter (fun p => decide (p.2 = s)) := by
  induction l with
  | nil => rfl
  | cons a m ih =>
    have h1 : sortDesc (a :: m) = (sortDesc m).orderedInsert scoreGE a := rfl
    rw [h1, List.orderedInsert_eq_take_drop]
    have htw : ∀ x ∈ (sortDesc m).takeWhile fun b => ¬scoreGE a b,
        ¬(x.2 = s) ∨ ¬(a.2 = s) := by
      intro x hx
      have hpred : ¬scoreGE a x := by simpa using List.mem_takeWhile_imp hx
      by_cases has : a.2 = s
      · left
        intro hxs
        exact hpred (le_of_eq (hxs.trans has.symm))
      · right
        exact has
    have hsplit : (sortDesc m).takeWhile (fun b => ¬scoreGE a b) ++
        (sortDesc m).dropWhile (fun b => ¬scoreGE a b) = sortDesc m :=
      List.takeWhile_append_dropWhile _ _
    by_cases has : a.2 = s
    · have htw0 : ((sortDesc m).takeWhile fun b => ¬scoreGE a b).filter
          (fun p => decide (p.2 = s)) = [] := by
        rw [List.filter_eq_nil_iff]
        intro x hx
        rcases htw x hx with h | h
        · simpa using h
        · exact absurd has h
      calc (((sortDesc m).takeWhile fun b => ¬scoreGE a b) ++
              a :: (sortDesc m).dropWhile fun b => ¬scoreGE a b).filter
                (fun p => decide (p.2 = s))
          = a :: (((sortDesc m).takeWhile fun b => ¬scoreGE a b) ++
              (sortDesc m).dropWhile fun b => ¬scoreGE a b).filter
                (fun p => decide (p.2 = s)) := by
            rw [List.filter_append, List.filter_append, htw0]
            simp [has]
        _ = a :: m.filter (fun p => decide (p.2 = s)) := by rw [hsplit, ih]
        _ = (a :: m).filter (fun p => decide (p.2 = s)) := by simp [has]
    · calc (((sortDesc m).takeWhile fun b => ¬scoreGE a b) ++
              a :: (sortDesc m).dropWhile fun b => ¬scoreGE a b).filter
                (fun p => decide (p.2 = s))
          = (((sortDesc m).takeWhile fun b => ¬scoreGE a b) ++
              (sortDesc m).dropWhile fun b => ¬scoreGE a b).filter
                (fun p => decide (p.2 = s)) := by
            rw [List.filter_append, List.filter_append]
            simp [has]
        _ = m.filter (fun p => decide (p.2 = s)) := by rw [hsplit, ih]
        _ = (a :: m).filter (fun p => decide (p.2 = s)) := by simp [has]

end SortLemmas

/-! Feedback collection, main.py lines 34-74. -/

/-- Normalisation applied to the user's reply: input().strip().lower(). -/
def normFeedback (s : String) : String := lowerStr (trimStr s)

/-- A result is displayed and judged exactly when result.get of fileFormat
is falsy: the key is absent or holds an empty string. -/
def isHtml (r : Result) : Bool :=
  match r.fileFormat with
  | none => true
  | some s => s == ""

/-- Loop of collect_feedback: skip non-HTML results, otherwise partition by
whether the normalised reply equals y.  judge models the blocking feedback
collaborator, one reply per displayed result. -/
def collectAux (judge : Result → String) : List Result → List Result × List Result
  | [] => ([], [])
  | r :: rs =>
    let rest := collectAux judge rs
    if isHtml r then
      if normFeedback (judge r) == "y" then (r :: rest.1, rest.2)
      else (rest.1, r :: rest.2)
    else rest

/-- collect_feedback of main.py: partition plus precision.  The Python
computes len(rel) / (len(rel) + len(irr)) with no guard; a zero denominator
raises ZeroDivisionError, modelled as none. -/
def collectFeedback (judge : Result → String) (results : List Result) :
    List Result × List Result × Option ℚ :=
  let p := collectAux judge results
  let den := p.1.length + p.2.length
  (p.1, p.2, if den = 0 then none else some ((p.1.length : ℚ) / (den : ℚ)))

theorem collectAux_eq_filter (judge : Result → String) (results : List Result) :
    collectAux judge results =
      (results.filter (fun r => isHtml r && (normFeedback (judge r) == "y")),
       results.filter (fun r => isHtml r && !(normFeedback (judge r) == "y"))) := by
  induction results with
  | nil => rfl
  | cons r rs ih =>
    by_cases h1 : isHtml r
    · by_cases h2 : normFeedback (judge r) == "y"
      · simp [collectAux, ih, h1, h2, List.filter_cons]
      · simp only [Bool.not_eq_true] at h2
        simp [collectAux, ih, h1, h2, List.filter_cons]
    · simp only [Bool.not_eq_true] at h1
      simp [collectAux, ih, h1, List.filter_cons]

/-! Tokenizer filtering shared by the joann variants. -/

/-- Filter applied to a document's tokens in joann / joann-2 / joann-3 /
joann-4: drop stop words and words of the original query. -/
def filterTerms (stop kw : List String) (ws : List String) : List String :=
  ws.filter (fun w => !stop.contains w && !kw.contains w)

/-! Policy A, joann.py refine_query lines 42-71: plain frequency counting
over relevant documents only. -/

/-- Word frequency table of joann.py: count the stop-word-filtered token
stream of all relevant results, then delete keys belonging to the original
query (dict deletion keeps the order of the remaining keys). -/
def jo1WordFreq (oq : String) (rel : List Result) (stop : List String) :
    List (String × ℕ) :=
  (counterOf ((rel.flatMap (fun r => tokenize (content r))).filter
      (fun w => !stop.contains w))).filter
    (fun p => !(tokenize oq).contains p.1)

/-- Top-2 of joann.py: word_freq.most_common of 2. -/
def jo1SelectPairs (oq : String) (rel : List Result) (stop : List String) :
    List (String × ℕ) :=
  mostCommon 2 (jo1WordFreq oq rel stop)

def jo1Select (oq : String) (rel : List Result) (stop : List String) : List String :=
  (jo1SelectPairs oq rel stop).map (fun p => p.1)

/-- New query of joann.py line 69. -/
def jo1NewQuery (oq : String) (rel : List Result) (stop : List String) : String :=
  oq ++ " " ++ joinSep " " (jo1Select oq rel stop)

/-! Policy B (frequency Rocchio), joann-3.py refine_query lines 46-103. -/

/-- Class-level term-frequency Counter of joann-3: one Counter updated with
every document's filtered token list in order, which equals counting the
concatenated stream. -/
def jo3TF (stop kw : List String) (docs : List Result) : List (String × ℕ) :=
  counterOf (docs.flatMap (fun d => filterTerms stop kw (tokenize (content d))))

/-- term_scores of joann-3 lines 84-92: for each relevant term add
beta * freq / numRelevant, for each non-relevant term subtract
gamma * freq / numNonrelevant, with beta three quarters and gamma three
twentieths. -/
def jo3Scores (oq : String) (rel irr : List Result) (stop : List String) :
    List (String × ℚ) :=
  let kw := tokenize oq
  let s1 := (jo3TF stop kw rel).foldl
    (fun acc p => bump acc p.1 ((3 / 4 : ℚ) * (p.2 : ℚ) / (rel.length : ℚ))) []
  (jo3TF stop kw irr).foldl
    (fun acc p => bump acc p.1 (-((3 / 20 : ℚ) * (p.2 : ℚ) / (irr.length : ℚ)))) s1

/-- Line 95 of joann-3: unary plus on a Counter keeps only entries with a
strictly positive value, preserving order. -/
def jo3Pos (oq : String) (rel irr : List Result) (stop : List String) :
    List (String × ℚ) :=
  (jo3Scores oq rel irr stop).filter (fun p => decide (0 < p.2))

def jo3SelectPairs (oq : String) (rel irr : List Result) (stop : List String) :
    List (String × ℚ) :=
  mostCommon 2 (jo3Pos oq rel irr stop)

/-- new_keywords of joann-3 line 98. -/
def jo3Refine (oq : String) (rel irr : List Result) (stop : List String) :
    List String :=
  (jo3SelectPairs oq rel irr stop).map (fun p => p.1)

/-- New query of joann-3 line 151. -/
def jo3NewQuery (oq : String) (rel irr : List Result) (stop : List String) : String :=
  oq ++ " " ++ joinSep " " (jo3Refine oq rel irr stop)

/-! Document-frequency table, joann-4.py lines 49-69 and joann-2.py lines
46-67: for every document, every distinct filtered term gets its document
frequency incremented once. -/

/-- doc_freq construction: per document increment once per distinct term.
List.dedup models iterating over the Python set of the document's terms;
the resulting counts are independent of the set's iteration order. -/
def dfTable (docs : List (List String)) : List (String × ℕ) :=
  docs.foldl (fun acc d => counterFrom acc d.dedup) []

/-- Filtered documents of joann-4: relevant then non-relevant. -/
def jo4FilteredDocs (stop : List String) (oq : String) (rel irr : List Result) :
    List (List String) :=
  (rel ++ irr).map (fun r => filterTerms stop (tokenize oq) (tokenize (content r)))

def jo4DocFreq (stop : List String) (oq : String) (rel irr : List Result) :
    List (String × ℕ) :=
  dfTable (jo4FilteredDocs stop oq rel irr)

/-- Filtered documents of joann-2: relevant only. -/
def jo2FilteredDocs (stop : List String) (oq : String) (rel : List Result) :
    List (List String) :=
  rel.map (fun r => filterTerms stop (tokenize oq) (tokenize (content r)))

def jo2DocFreq (stop : List String) (oq : String) (rel : List Result) :
    List (String × ℕ) :=
  dfTable (jo2FilteredDocs stop oq rel)

/-! Policy B (TF-IDF Rocchio), joann-4.py refine_query lines 46-103. -/

/-- Smoothed inverse document frequency of joann-4 lines 86 and 93:
ln of (totalDocs + 1) / (df + 1). -/
noncomputable def idfR (numDocs dfc : ℕ) : ℝ :=
  Real.log (((numDocs : ℝ) + 1) / ((dfc : ℝ) + 1))

/-- Document frequency of a term over token-list documents: in how many
documents it occurs at least once. -/
def dfIn (t : String) (docs : List (List String)) : ℕ :=
  docs.countP (fun d => d.contains t)

/-- Contribution of one relevant document to a term's score, lines 84-88:
zero when the term does not occur there (Counter.items only yields present
terms), else beta * (1 + ln tf) * idf / numRelevant with beta three
quarters. -/
noncomputable def relContribution (t : String) (numDocs dfc len : ℕ) (d : List String) : ℝ :=
  if d.count t = 0 then 0
  else (3 / 4 : ℝ) * ((1 + Real.log ((d.count t : ℕ) : ℝ)) * idfR numDocs dfc) / (len : ℝ)

/-- Contribution subtracted for one non-relevant document, lines 91-95,
with gamma three twentieths; when the non-relevant partition is empty the
loop body never runs, matching the empty sum. -/
noncomputable def irrContribution (t : String) (numDocs dfc len : ℕ) (d : List String) : ℝ :=
  if d.count t = 0 then 0
  else (3 / 20 : ℝ) * ((1 + Real.log ((d.count t : ℕ) : ℝ)) * idfR numDocs dfc) / (len : ℝ)

/-- Final score a term accumulates in term_scores of joann-4, written as
the closed form of the per-(document, term) accumulation of lines 82-95
over filtered token-list documents: the positive relevant contributions
minus the non-relevant penalties, with document frequency taken over both
partitions. -/
noncomputable def jo4Score (t : String) (rel irr : List (List String)) : ℝ :=
  (rel.map (relContribution t (rel.length + irr.length) (dfIn t (rel ++ irr)) rel.length)).sum
    - (irr.map (irrContribution t (rel.length + irr.length) (dfIn t (rel ++ irr)) irr.length)).sum

/-- Operational term_scores Counter of joann-4, accumulating in document
and first-seen term order; used where the selection order matters. -/
noncomputable def jo4TermScores (oq : String) (rel irr : List Result) (stop : List String) :
    List (String × ℝ) :=
  let kw := tokenize oq
  let relF := rel.map (fun r => filterTerms stop kw (tokenize (content r)))
  let irrF := irr.map (fun r => filterTerms stop kw (tokenize (content r)))
  let dfT := dfTable (relF ++ irrF)
  let n := rel.length + irr.length
  let s1 := relF.foldl (fun acc d => (counterOf d).foldl
    (fun a p => bump a p.1
      ((3 / 4 : ℝ) * ((1 + Real.log ((p.2 : ℕ) : ℝ)) * idfR n (getVal dfT p.1 0)) /
        (rel.length : ℝ))) acc) []
  irrF.foldl (fun acc d => (counterOf d).foldl
    (fun a p => bump a p.1
      (-((3 / 20 : ℝ) * ((1 + Real.log ((p.2 : ℕ) : ℝ)) * idfR n (getVal dfT p.1 0)) /
        (irr.length : ℝ)))) acc) s1

/-- new_keywords of joann-4 line 98: most_common of 2 then drop original
query words. -/
noncomputable def jo4Refine (oq : String) (rel irr : List Result) (stop : List String) :
    List String :=
  ((mostCommon 2 (jo4TermScores oq rel irr stop)).filter
      (fun p => !(tokenize oq).contains p.1)).map (fun p => p.1)

/-! Rocchio expansion of main.py lines 77-153.  The TfidfVectorizer ranking
of candidate terms is an external collaborator (scikit-learn); the filter
and the permutation step that main.py applies to it are modelled over an
arbitrary ranked feature list. -/

/-- new_terms of main.py line 121: ranked features minus words of the
original query. -/
def mainNewTerms (ranked : List String) (oq : String) : List String :=
  ranked.filter (fun f => !(tokenize oq).contains f)

/-- Reading new_terms[0] and new_terms[1] at line 124; none models the
IndexError raised when fewer than two candidates remain. -/
def mainPickTwo (ts : List String) : Option (String × String) :=
  match ts with
  | a :: b :: _ => some (a, b)
  | _ => none

/-- itertools.permutations of a three-element tuple, in generation order. -/
def permutations3 (a b c : String) : List (String × String × String) :=
  [(a, b, c), (a, c, b), (b, a, c), (b, c, a), (c, a, b), (c, b, a)]

/-- Remainder of the text after the first occurrence of pat, or none when
pat does not occur. -/
def leadsWith : List Char → List Char → Bool
  | [], _ => true
  | _ :: _, [] => false
  | a :: as, b :: bs => a == b && leadsWith as bs

def dropPast (pat : List Char) : List Char → Option (List Char)
  | [] => if leadsWith pat [] then some [] else none
  | c :: cs => if leadsWith pat (c :: cs) then some (List.drop (pat.length - 1) cs)
               else dropPast pat cs

/-- Whether a, b, c occur in this order (as substrings with arbitrary gaps)
inside s.  This is exactly when the regex a.*b.*c has a match; with greedy
quantifiers re.findall returns one match in that case and none otherwise,
so the per-section findall count of main.py line 132 is this indicator. -/
def inOrder3 (a b c s : List Char) : Bool :=
  (((dropPast a s).bind (dropPast b)).bind (dropPast c)).isSome

/-- Per-section case-insensitive match indicator for one permutation. -/
def sectionMatches (p : String × String × String) (s : String) : Bool :=
  inOrder3 (lowerStr p.1).data (lowerStr p.2.1).data (lowerStr p.2.2).data
    (lowerStr s).data

/-- Total match count of one permutation over the sentence-like sections. -/
def permMatchCount (p : String × String × String) (sections : List String) : ℕ :=
  sections.countP (fun s => sectionMatches p s)

/-- Sections of main.py lines 128-131: the joined lower-cased relevant
texts split on periods. -/
def mainSections (rel : List Result) : List String :=
  splitDot (lowerStr (joinSep " " (rel.map content)))

/-- perm_counts of main.py lines 129-132, in permutation-generation
order. -/
def permScores (oq t1 t2 : String) (sections : List String) :
    List ((String × String × String) × ℕ) :=
  (permutations3 oq t1 t2).map (fun p => (p, permMatchCount p sections))

/-- max_count of line 135: the largest value in perm_counts. -/
def maxMatchCount (oq t1 t2 : String) (sections : List String) : ℕ :=
  ((permScores oq t1 t2 sections).map (fun pc => pc.2)).foldl Nat.max 0

/-- max_count_perms of line 138, in generation order. -/
def maxPerms (oq t1 t2 : String) (sections : List String) :
    List (String × String × String) :=
  ((permScores oq t1 t2 sections).filter
      (fun pc => pc.2 == maxMatchCount oq t1 t2 sections)).map (fun pc => pc.1)

/-- best_permutation of lines 140-148: with several tied permutations
prefer one whose first element is the original query, falling back to the
first tied one; a single tied permutation is taken as is; the dead empty
branch returns the natural order. -/
def bestPermutation (oq t1 t2 : String) (sections : List String) :
    String × String × String :=
  match maxPerms oq t1 t2 sections with
  | [] => (oq, t1, t2)
  | [p] => p
  | p :: q :: ps => (((p :: q :: ps).find? (fun r => r.1 == oq)).getD p)

/-- new_query of main.py line 151. -/
def mainNewQuery (oq t1 t2 : String) (sections : List String) : String :=
  joinSep " "
    [(bestPermutation oq t1 t2 sections).1,
     (bestPermutation oq t1 t2 sections).2.1,
     (bestPermutation oq t1 t2 sections).2.2]

/-! Loop bodies.  One iteration of each main loop as a step function over
the search results and the feedback collaborator; the search request itself
is the external collaborator producing the results list. -/

/-- Outcome of one iteration of the main.py loop body, lines 175-219. -/
inductive MainOutcome where
  | tooFewResults : MainOutcome
  | doneTargetMet : MainOutcome
  | doneExhausted : MainOutcome
  | expandStep : String → String → MainOutcome
  | zeroDivisionFault : MainOutcome
  | indexFault : MainOutcome
deriving DecidableEq

/-- One iteration of main.py lines 175-219.  The len(results) == 0 branch
at line 192 only prints "No relevant results. Terminating ..." and does not
break, so control still reaches collect_feedback; a zero count of judged
(HTML) results then makes the precision quotient of line 72 raise
ZeroDivisionError, modelled as zeroDivisionFault.  Reading new_terms[1] on
a list with fewer than two candidates raises IndexError, modelled as
indexFault.  ranked stands for the TfidfVectorizer ordering of candidate
terms. -/
def mainStep (target : ℚ) (iteration : ℕ) (oq : String) (judge : Result → String)
    (ranked : List String) (results : List Result) : MainOutcome :=
  if results.length < 10 ∧ iteration = 0 then .tooFewResults
  else
    match (collectFeedback judge results).2.2 with
    | none => .zeroDivisionFault
    | some p =>
      if target ≤ p then .doneTargetMet
      else if p = 0 then .doneExhausted
      else
        match mainPickTwo (mainNewTerms ranked oq) with
        | none => .indexFault
        | some (t1, t2) =>
          .expandStep (joinSep " " [t1, t2])
            (mainNewQuery oq t1 t2 (mainSections (collectFeedback judge results).1))

/-- Outcome of one iteration of the joann-3 loop body, lines 117-151. -/
inductive Jo3Outcome where
  | doneTargetMet : Jo3Outcome
  | doneExhausted : Jo3Outcome
  | expandStep : String → Jo3Outcome
  | zeroDivisionFault : Jo3Outcome
deriving DecidableEq

/-- One iteration of joann-3 lines 117-151: judge each result (y relevant,
n non-relevant, anything else discarded), precision over all results, then
either stop on the two DONE branches or continue with the augmented
query. -/
def jo3Step (target : ℚ) (stop : List String) (oq : String)
    (judge : Result → String) (results : List Result) : Jo3Outcome :=
  let rel := results.filter (fun r => normFeedback (judge r) == "y")
  let irr := results.filter (fun r => normFeedback (judge r) == "n")
  if results.length = 0 then .zeroDivisionFault
  else
    let p : ℚ := (rel.length : ℚ) / (results.length : ℚ)
    if target ≤ p then .doneTargetMet
    else if p = 0 then .doneExhausted
    else .expandStep (jo3NewQuery oq rel irr stop)

/-! Shared list lemma for the precision denominator. -/

theorem filter_and_length {α : Type} (a b : α → Bool) (l : List α) :
    (l.filter (fun r => a r && b r)).length + (l.filter (fun r => a r && !b r)).length
      = (l.filter a).length := by
  induction l with
  | nil => rfl
  | cons x xs ih =>
    by_cases ha : a x
    · by_cases hb : b x
      · simp [List.filter_cons, ha, hb]
        omega
      · simp only [Bool.not_eq_true] at hb
        simp [List.filter_cons, ha, hb]
        omega
    · simp only [Bool.not_eq_true] at ha
      simp [List.filter_cons, ha]
      exact ih

/-! Claims -/

/-- C1: the claim states that when an iteration yields zero judged results
the precision is defined as 0 and the loop transitions to the exhausted
DONE branch without faulting, and that the precision computation never
raises a division error.  The code violates this: collect_feedback of
main.py divides by len(relevant) + len(irrelevant) with no guard, so with
ten non-HTML results (all skipped, zero judged) or with an empty result
list on a later iteration (line 192 prints "Terminating ..." but does not
break) the quotient at line 72 raises ZeroDivisionError — the embedded
step reaches the division fault, not a DONE state. -/
theorem c1_zero_judged_results_division_fault :
    (collectFeedback (fun _ => "y") (List.replicate 10 ⟨"u", "t", "s", some "PDF"⟩)).2.2
        = none
    ∧ mainStep (1 / 2) 1 "q" (fun _ => "y") []
        (List.replicate 10 ⟨"u", "t", "s", some "PDF"⟩) = .zeroDivisionFault
    ∧ mainStep (1 / 2) 1 "q" (fun _ => "y") [] [] = .zeroDivisionFault
    ∧ mainStep (1 / 2) 1 "q" (fun _ => "y") [] [] ≠ .doneExhausted := by
  refine ⟨rfl, rfl, rfl, ?_⟩
  have h : mainStep (1 / 2) 1 "q" (fun _ => "y") [] [] = .zeroDivisionFault := rfl
  rw [h]
  exact fun hc => MainOutcome.noConfusion hc

/-- C2: the claim states that when filtering and scoring leave zero
candidate expansion terms the loop terminates in a DONE state.  The code
violates this: at an input where every candidate scores non-positively,
joann-3's refine_query returns no keywords, yet the loop body takes the
expand branch with the query extended only by a trailing space — the
keyword tokens are unchanged, so the next iteration repeats the same
search forever.  In main.py the same degenerate case makes new_terms[1]
at line 124 raise IndexError (modelled by mainPickTwo returning none). -/
theorem c2_degenerate_scoring_no_done_state :
    jo3Step (9 / 10) [] "dog" (fun r => if r.link == "u1" then "y" else "n")
        [⟨"u1", "dog", "", none⟩, ⟨"u2", "dog", "", none⟩] = .expandStep "dog "
    ∧ jo3Refine "dog" [⟨"u1", "dog", "", none⟩] [⟨"u2", "dog", "", none⟩] [] = []
    ∧ tokenize "dog " = tokenize "dog"
    ∧ mainPickTwo (mainNewTerms ["dog"] "dog") = none := by
  refine ⟨?_, rfl, rfl, rfl⟩
  have hstep : jo3Step (9 / 10) [] "dog" (fun r => if r.link == "u1" then "y" else "n")
      [⟨"u1", "dog", "", none⟩, ⟨"u2", "dog", "", none⟩]
      = if (9 / 10 : ℚ) ≤ (((1 : ℕ) : ℚ) / ((2 : ℕ) : ℚ)) then .doneTargetMet
        else if (((1 : ℕ) : ℚ) / ((2 : ℕ) : ℚ)) = 0 then .doneExhausted
        else .expandStep "dog " := rfl
  rw [hstep, if_neg (by norm_num), if_neg (by norm_num)]

/-- C10: in collect_feedback of main.py a displayed (HTML) result is
classified relevant exactly when the stripped, lower-cased reply equals y;
every other reply (including yes and the empty line) makes it irrelevant;
every HTML result lands in exactly one partition and the precision
denominator counts all and only the HTML results. -/
theorem c10_feedback_partition (judge : Result → String) (results : List Result) :
    (∀ r, r ∈ (collectFeedback judge results).1 ↔
      (r ∈ results ∧ isHtml r = true ∧ normFeedback (judge r) = "y"))
    ∧ (∀ r, r ∈ (collectFeedback judge results).2.1 ↔
      (r ∈ results ∧ isHtml r = true ∧ ¬normFeedback (judge r) = "y"))
    ∧ (∀ r ∈ results, isHtml r = true →
        (r ∈ (collectFeedback judge results).1 ↔
          r ∉ (collectFeedback judge results).2.1))
    ∧ (collectFeedback judge results).1.length + (collectFeedback judge results).2.1.length
        = (results.filter (fun r => isHtml r)).length
    ∧ ((results.filter (fun r => isHtml r)).length ≠ 0 →
        (collectFeedback judge results).2.2 =
          some (((collectFeedback judge results).1.length : ℚ) /
            (((results.filter (fun r => isHtml r)).length : ℚ))))
    ∧ normFeedback " Y " = "y" ∧ ¬normFeedback "yes" = "y" ∧ ¬normFeedback "" = "y" := by
  have haux := collectAux_eq_filter judge results
  have h1 : (collectFeedback judge results).1 =
      results.filter (fun r => isHtml r && (normFeedback (judge r) == "y")) := by
    simp [collectFeedback, haux]
  have h2 : (collectFeedback judge results).2.1 =
      results.filter (fun r => isHtml r && !(normFeedback (judge r) == "y")) := by
    simp [collectFeedback, haux]
  have hlen : (collectFeedback judge results).1.length +
      (collectFeedback judge results).2.1.length
        = (results.filter (fun r => isHtml r)).length := by
    rw [h1, h2]
    exact filter_and_length _ _ _
  refine ⟨?_, ?_, ?_, hlen, ?_, by decide, by decide, by decide⟩
  · intro r
    rw [h1, List.mem_filter]
    simp [beq_iff_eq, and_assoc]
  · intro r
    rw [h2, List.mem_filter]
    simp [beq_iff_eq, and_assoc]
  · intro r hr hh
    rw [h1, h2, List.mem_filter, List.mem_filter]
    by_cases hy : normFeedback (judge r) == "y"
    · simp [hr, hh, hy]
    · simp only [Bool.not_eq_true] at hy
      simp [hr, hh, hy]
  · intro hden
    have hd2 : (collectFeedback judge results).1.length +
        (collectFeedback judge results).2.1.length ≠ 0 := by rwa [hlen]
    have hform : (collectFeedback judge results).2.2 =
        if (collectFeedback judge results).1.length +
            (collectFeedback judge results).2.1.length = 0 then none
        else some (((collectFeedback judge results).1.length : ℚ) /
          (((collectFeedback judge results).1.length +
            (collectFeedback judge results).2.1.length : ℕ) : ℚ)) := rfl
    rw [hform, if_neg hd2, hlen]

/-- Value of the document-frequency table: the number of documents whose
filtered token list contains the term. -/
theorem getVal_dfTable (docs : List (List String)) (t : String) :
    getVal (dfTable docs) t 0 = docs.countP (fun d => d.contains t) := by
  suffices h : ∀ (acc : List (String × ℕ)),
      getVal (docs.foldl (fun acc d => counterFrom acc d.dedup) acc) t 0
        = getVal acc t 0 + docs.countP (fun d => d.contains t) by
    have h0 := h []
    simpa [dfTable, getVal] using h0
  induction docs with
  | nil => intro acc; simp
  | cons d ds ih =>
    intro acc
    have hfold : (d :: ds).foldl (fun acc d => counterFrom acc d.dedup) acc
        = ds.foldl (fun acc d => counterFrom acc d.dedup) (counterFrom acc d.dedup) := rfl
    rw [hfold, ih, getVal_counterFrom, List.count_dedup, List.countP_cons]
    by_cases hm : t ∈ d
    · have hc : d.contains t = true := by simpa using hm
      simp only [hm, if_pos, hc]
      omega
    · simp [hm]

/-- C7: for every document collection processed into a document-frequency
table (joann-4 over both partitions, joann-2 over the relevant partition),
every term's document frequency is at most the number of documents
scanned, and at least 1 for every term present in some per-document
term-frequency table. -/
theorem c7_document_frequency_bounds (stop : List String) (oq : String)
    (rel irr : List Result) (t : String) :
    (getVal (jo4DocFreq stop oq rel irr) t 0 ≤ (rel ++ irr).length
      ∧ ∀ d ∈ jo4FilteredDocs stop oq rel irr,
          t ∈ keys (counterOf d) → 1 ≤ getVal (jo4DocFreq stop oq rel irr) t 0)
    ∧ (getVal (jo2DocFreq stop oq rel) t 0 ≤ rel.length
      ∧ ∀ d ∈ jo2FilteredDocs stop oq rel,
          t ∈ keys (counterOf d) → 1 ≤ getVal (jo2DocFreq stop oq rel) t 0) := by
  constructor
  · constructor
    · rw [jo4DocFreq, getVal_dfTable]
      calc (jo4FilteredDocs stop oq rel irr).countP (fun d => d.contains t)
          ≤ (jo4FilteredDocs stop oq rel irr).length := List.countP_le_length _
        _ = (rel ++ irr).length := by simp [jo4FilteredDocs]
    · intro d hd hk
      rw [jo4DocFreq, getVal_dfTable]
      have hmem : t ∈ d := mem_keys_counterOf.1 hk
      have : 0 < (jo4FilteredDocs stop oq rel irr).countP (fun d => d.contains t) :=
        List.countP_pos_iff.2 ⟨d, hd, by simpa using hmem⟩
      omega
  · constructor
    · rw [jo2DocFreq, getVal_dfTable]
      calc (jo2FilteredDocs stop oq rel).countP (fun d => d.contains t)
          ≤ (jo2FilteredDocs stop oq rel).length := List.countP_le_length _
        _ = rel.length := by simp [jo2FilteredDocs]
    · intro d hd hk
      rw [jo2DocFreq, getVal_dfTable]
      have hmem : t ∈ d := mem_keys_counterOf.1 hk
      have : 0 < (jo2FilteredDocs stop oq rel).countP (fun d => d.contains t) :=
        List.countP_pos_iff.2 ⟨d, hd, by simpa using hmem⟩
      omega

/-- Witness for C7 at a concrete input: the term cat occurs in the single
relevant document's table, so its document frequency is at least 1. -/
theorem c7_witness :
    1 ≤ getVal (jo4DocFreq [] "dog" [⟨"u1", "cat", "", none⟩] []) "cat" 0 :=
  (c7_document_frequency_bounds [] "dog" [⟨"u1", "cat", "", none⟩] [] "cat").1.2
    ["cat"] (by decide) (by decide)

/-- Lookup skips a head entry with a different key. -/
theorem getVal_cons_ne {β : Type} {p : String × β} {ps : List (String × β)}
    {t : String} {d : β} (h : (p.1 == t) = false) :
    getVal (p :: ps) t d = getVal ps t d := by
  simp [getVal, List.find?, h]

/-- Lookup hits a head entry with a matching key. -/
theorem getVal_cons_eq {β : Type} {p : String × β} {ps : List (String × β)}
    {t : String} {d : β} (h : (p.1 == t) = true) :
    getVal (p :: ps) t d = p.2 := by
  simp [getVal, List.find?, h]

/-- Filtering entries by a predicate that keeps every entry with key t does
not change the value looked up at t. -/
theorem getVal_filter {β : Type} (q : String × β → Bool) (l : List (String × β))
    (t : String) (d : β) (ht : ∀ p : String × β, p.1 = t → q p = true) :
    getVal (l.filter q) t d = getVal l t d := by
  induction l with
  | nil => rfl
  | cons p ps ih =>
    by_cases hq : q p = true
    · rw [List.filter_cons_of_pos hq]
      rcases Bool.eq_false_or_eq_true (p.1 == t) with hpt | hpt
      · rw [getVal_cons_eq hpt, getVal_cons_eq hpt]
      · rw [getVal_cons_ne hpt, getVal_cons_ne hpt, ih]
    · have hqf : q p = false := by simpa using hq
      have hne : ¬p.1 = t := fun hc => by simp [ht p hc] at hqf
      have hpt : (p.1 == t) = false := by simpa [beq_eq_false_iff_ne] using hne
      rw [List.filter_cons_of_neg (by simp [hqf]), ih, getVal_cons_ne hpt]

/-- Count of a term over a concatenation of token streams is the sum of the
per-document counts. -/
theorem count_flatMap (t : String) (l : List Result) (f : Result → List String) :
    ((l.flatMap f).count t) = (l.map (fun x => (f x).count t)).sum := by
  induction l with
  | nil => rfl
  | cons x xs ih => simp [List.flatMap_cons, List.count_append, ih]

/-- C8: under Policy A (joann.py) the score of every candidate term (not a
stop word, not an original query word) equals the sum over relevant
documents of its term frequency; the selected top-2 never scores below any
unselected entry; and ties keep the first-encountered order because the
stable sort preserves the original order of equal-count entries, so
re-computation of the pure selection function yields the same set. -/
theorem c8_policy_a_scoring (oq : String) (rel : List Result) (stop : List String) :
    (∀ t, stop.contains t = false → (tokenize oq).contains t = false →
      getVal (jo1WordFreq oq rel stop) t 0
        = (rel.map (fun r => (tokenize (content r)).count t)).sum)
    ∧ (∀ u ∈ jo1WordFreq oq rel stop, u ∉ jo1SelectPairs oq rel stop →
        ∀ p ∈ jo1SelectPairs oq rel stop, u.2 ≤ p.2)
    ∧ (∀ s : ℕ, (sortDesc (jo1WordFreq oq rel stop)).filter (fun p => decide (p.2 = s))
        = (jo1WordFreq oq rel stop).filter (fun p => decide (p.2 = s))) := by
  refine ⟨?_, ?_, ?_⟩
  · intro t hstop hq
    have hq2 : t ∉ tokenize oq := by simpa using hq
    have hs2 : t ∉ stop := by simpa using hstop
    rw [jo1WordFreq, getVal_filter _ _ _ _ (fun p hp => by simp [hp, hq2]),
      getVal_counterOf, List.count_filter (by simp [hs2]), count_flatMap]
  · intro u hu hun p hp
    simp only [jo1SelectPairs] at hun hp
    exact mostCommon_le hu hun hp
  · intro s
    exact sortDesc_filter_stable _ s

/-- Witness for C8 at a concrete input: the candidate term cat is neither a
stop word nor a query word, and its score equals the total frequency over
the relevant documents. -/
theorem c8_witness :
    getVal (jo1WordFreq "dog" [⟨"u1", "cat cat", "", none⟩] []) "cat" 0
      = (([⟨"u1", "cat cat", "", none⟩] : List Result).map
          (fun r => (tokenize (content r)).count "cat")).sum :=
  (c8_policy_a_scoring "dog" [⟨"u1", "cat cat", "", none⟩] []).1 "cat" rfl (by decide)

/-- Keys produced by a fold of score updates come from the initial table or
from the item keys. -/
theorem mem_keys_scoreFold {b g : Type} [Add b] (f : String × g → b)
    (items : List (String × g)) (init : List (String × b)) (t : String)
    (h : t ∈ keys (items.foldl (fun acc p => bump acc p.1 (f p)) init)) :
    t ∈ keys init ∨ ∃ p ∈ items, p.1 = t := by
  induction items generalizing init with
  | nil => exact Or.inl h
  | cons q qs ih =>
    have h1 : (q :: qs).foldl (fun acc p => bump acc p.1 (f p)) init
        = qs.foldl (fun acc p => bump acc p.1 (f p)) (bump init q.1 (f q)) := rfl
    rw [h1] at h
    rcases ih (bump init q.1 (f q)) h with h2 | h2
    · rcases mem_keys_bump.1 h2 with h3 | h3
      · exact Or.inl h3
      · exact Or.inr ⟨q, List.mem_cons_self _ _, h3.symm⟩
    · rcases h2 with ⟨p, hp, hpt⟩
      exact Or.inr ⟨p, List.mem_cons_of_mem _ hp, hpt⟩

/-- A fold of score updates keeps the keys duplicate-free. -/
theorem nodup_keys_scoreFold {b g : Type} [Add b] (f : String × g → b)
    (items : List (String × g)) (init : List (String × b))
    (h : (keys init).Nodup) :
    (keys (items.foldl (fun acc p => bump acc p.1 (f p)) init)).Nodup := by
  induction items generalizing init with
  | nil => exact h
  | cons q qs ih => exact ih (bump init q.1 (f q)) (nodup_keys_bump q.1 (f q) h)

/-- Entries of a word counter have keys drawn from the word stream. -/
theorem fst_mem_of_mem_counterOf {ws : List String} {p : String × ℕ}
    (h : p ∈ counterOf ws) : p.1 ∈ ws :=
  mem_keys_counterOf.1 (List.mem_map_of_mem (fun q => q.1) h)

/-- Every key of the joann-3 score table survived the stop-word and
query-word filter, so it is not a token of the original query. -/
theorem jo3Scores_key_not_query {oq : String} {rel irr : List Result}
    {stop : List String} {t : String}
    (h : t ∈ keys (jo3Scores oq rel irr stop)) : t ∉ tokenize oq := by
  have hcases : t ∈ keys ([] : List (String × ℚ))
      ∨ (∃ p ∈ jo3TF stop (tokenize oq) rel, p.1 = t)
      ∨ ∃ p ∈ jo3TF stop (tokenize oq) irr, p.1 = t := by
    simp only [jo3Scores] at h
    rcases mem_keys_scoreFold _ _ _ _ h with h1 | h1
    · rcases mem_keys_scoreFold _ _ _ _ h1 with h2 | h2
      · exact Or.inl h2
      · exact Or.inr (Or.inl h2)
    · exact Or.inr (Or.inr h1)
  have hword : ∃ docs : List Result, t ∈ docs.flatMap
      (fun d => filterTerms stop (tokenize oq) (tokenize (content d))) := by
    rcases hcases with h1 | ⟨p, hp, hpt⟩ | ⟨p, hp, hpt⟩
    · simp [keys] at h1
    · exact ⟨rel, hpt ▸ fst_mem_of_mem_counterOf hp⟩
    · exact ⟨irr, hpt ▸ fst_mem_of_mem_counterOf hp⟩
  rcases hword with ⟨docs, hd⟩
  rcases List.mem_flatMap.1 hd with ⟨d, _, hdf⟩
  have hpred := (List.mem_filter.1 hdf).2
  simp only [Bool.and_eq_true, Bool.not_eq_true] at hpred
  intro hc
  have : (tokenize oq).contains t = true := by simpa using hc
  rw [this] at hpred
  exact Bool.noConfusion hpred.2

/-- Selected joann-3 expansion terms are never tokens of the current
query. -/
theorem jo3Refine_excludes (oq : String) (rel irr : List Result)
    (stop : List String) : ∀ t ∈ jo3Refine oq rel irr stop, t ∉ tokenize oq := by
  intro t ht
  simp only [jo3Refine] at ht
  rcases List.mem_map.1 ht with ⟨p, hp, hpt⟩
  have h1 : p ∈ jo3Pos oq rel irr stop := by
    simp only [jo3SelectPairs] at hp
    exact mostCommon_subset hp
  have h2 : p ∈ jo3Scores oq rel irr stop := (List.mem_filter.1 h1).1
  exact hpt ▸ jo3Scores_key_not_query (List.mem_map_of_mem (fun q => q.1) h2)

/-- The joann-3 selection contains no duplicate terms. -/
theorem jo3Refine_nodup (oq : String) (rel irr : List Result)
    (stop : List String) : (jo3Refine oq rel irr stop).Nodup := by
  have h0 : ((jo3Scores oq rel irr stop).map (fun q : String × ℚ => q.1)).Nodup := by
    have h : (keys (jo3Scores oq rel irr stop)).Nodup := by
      simp only [jo3Scores]
      exact nodup_keys_scoreFold _ _ _
        (nodup_keys_scoreFold _ _ _ (by simp [keys]))
    simpa [keys] using h
  have h1 : ((jo3Pos oq rel irr stop).map (fun q : String × ℚ => q.1)).Nodup := by
    have hsub : ((jo3Pos oq rel irr stop).map (fun q : String × ℚ => q.1)).Sublist
        ((jo3Scores oq rel irr stop).map (fun q : String × ℚ => q.1)) := by
      simp only [jo3Pos]
      exact (List.filter_sublist _).map (fun q : String × ℚ => q.1)
    exact h0.sublist hsub
  have h2 : ((sortDesc (jo3Pos oq rel irr stop)).map
      (fun q : String × ℚ => q.1)).Nodup :=
    (((sortDesc_perm (jo3Pos oq rel irr stop)).map
      (fun q : String × ℚ => q.1)).nodup_iff).2 h1
  have h3 : ((jo3SelectPairs oq rel irr stop).map (fun q : String × ℚ => q.1)).Nodup := by
    have hsub : ((jo3SelectPairs oq rel irr stop).map
        (fun q : String × ℚ => q.1)).Sublist
        ((sortDesc (jo3Pos oq rel irr stop)).map (fun q : String × ℚ => q.1)) := by
      simp only [jo3SelectPairs, mostCommon]
      exact (List.take_sublist 2 _).map (fun q : String × ℚ => q.1)
    exact h2.sublist hsub
  simpa [jo3Refine] using h3

/-- Terms surviving the main.py candidate filter are not query tokens. -/
theorem mainNewTerms_excludes (ranked : List String) (oq : String) :
    ∀ t ∈ mainNewTerms ranked oq, t ∉ tokenize oq := by
  intro t ht
  have hpred := (List.mem_filter.1 ht).2
  simp only [Bool.not_eq_true] at hpred
  intro hc
  have : (tokenize oq).contains t = true := by simpa using hc
  rw [this] at hpred
  exact Bool.noConfusion hpred

/-- C6: in both cited variants no newly selected expansion term is a
member of the current query's keyword set: main.py filters the ranked
candidates against the query tokens before selecting, and joann-3 scores
only terms that survived the query-word filter. -/
theorem c6_exclusion_invariant (ranked : List String) (oq : String)
    (rel irr : List Result) (stop : List String) :
    (∀ t ∈ mainNewTerms ranked oq, t ∉ tokenize oq)
    ∧ (∀ t ∈ jo3Refine oq rel irr stop, t ∉ tokenize oq) :=
  ⟨mainNewTerms_excludes ranked oq, jo3Refine_excludes oq rel irr stop⟩

/-- Witness for C6 at a concrete input: the selected candidate cat is not a
token of the query dog. -/
theorem c6_witness : "cat" ∉ tokenize "dog" :=
  (c6_exclusion_invariant ["cat"] "dog" [] [] []).1 "cat" (by decide)

/-- C3 (amended): under Policy B the non-positive-score filter is the
joann-3 variant's line 95 (unary plus on the Counter): every pair the
joann-3 top-2 selection returns has a strictly positive score.  The
joann-4 variant applies no such filter and can select a term whose final
score is non-positive (see the counterexample). -/
theorem c3_positive_scores_joann3 (oq : String) (rel irr : List Result)
    (stop : List String) :
    ∀ p ∈ jo3SelectPairs oq rel irr stop, 0 < p.2 := by
  intro p hp
  have h1 : p ∈ jo3Pos oq rel irr stop := by
    simp only [jo3SelectPairs] at hp
    exact mostCommon_subset hp
  have h2 := (List.mem_filter.1 h1).2
  simpa using h2

/-- Witness for C3 at a concrete input: with one relevant document
containing cat, the pair selected by joann-3 carries a positive score. -/
theorem c3_witness :
    (("cat", (3 / 4 : ℚ) * ((1 : ℕ) : ℚ) / ((1 : ℕ) : ℚ)) ∈
        jo3SelectPairs "dog" [⟨"u1", "cat", "", none⟩] [] [])
    ∧ (0 : ℚ) < (3 / 4 : ℚ) * ((1 : ℕ) : ℚ) / ((1 : ℕ) : ℚ) := by
  have hscores : jo3Scores "dog" [⟨"u1", "cat", "", none⟩] [] []
      = [("cat", (3 / 4 : ℚ) * ((1 : ℕ) : ℚ) / ((1 : ℕ) : ℚ))] := rfl
  have hv : (0 : ℚ) < (3 / 4 : ℚ) * ((1 : ℕ) : ℚ) / ((1 : ℕ) : ℚ) := by norm_num
  have hpos : jo3Pos "dog" [⟨"u1", "cat", "", none⟩] [] []
      = [("cat", (3 / 4 : ℚ) * ((1 : ℕ) : ℚ) / ((1 : ℕ) : ℚ))] := by
    simp only [jo3Pos, hscores]
    apply List.filter_eq_self.2
    intro a ha
    simp only [List.mem_singleton] at ha
    subst ha
    exact decide_eq_true hv
  have hsel : jo3SelectPairs "dog" [⟨"u1", "cat", "", none⟩] [] []
      = [("cat", (3 / 4 : ℚ) * ((1 : ℕ) : ℚ) / ((1 : ℕ) : ℚ))] := by
    simp only [jo3SelectPairs, hpos]
    rfl
  have hmem : ("cat", (3 / 4 : ℚ) * ((1 : ℕ) : ℚ) / ((1 : ℕ) : ℚ)) ∈
      jo3SelectPairs "dog" [⟨"u1", "cat", "", none⟩] [] [] := by
    rw [hsel]
    exact List.mem_singleton.2 rfl
  exact ⟨hmem, c3_positive_scores_joann3 "dog" [⟨"u1", "cat", "", none⟩] [] [] _ hmem⟩

/-! Lemmas on the permutation step of main.py. -/

theorem foldl_max_le_init (l : List ℕ) (a : ℕ) : a ≤ l.foldl Nat.max a := by
  induction l generalizing a with
  | nil => exact le_refl a
  | cons x xs ih => exact le_trans (Nat.le_max_left a x) (ih (Nat.max a x))

theorem le_foldl_max (l : List ℕ) (a : ℕ) : ∀ x ∈ l, x ≤ l.foldl Nat.max a := by
  induction l generalizing a with
  | nil => intro x hx; exact absurd hx (List.not_mem_nil x)
  | cons y ys ih =>
    intro x hx
    rcases List.mem_cons.1 hx with rfl | hx2
    · exact le_trans (Nat.le_max_right a x) (foldl_max_le_init ys (Nat.max a x))
    · exact ih (Nat.max a y) x hx2

theorem foldl_max_eq_or_mem (l : List ℕ) (a : ℕ) :
    l.foldl Nat.max a = a ∨ l.foldl Nat.max a ∈ l := by
  induction l generalizing a with
  | nil => exact Or.inl rfl
  | cons x xs ih =>
    rcases ih (Nat.max a x) with h | h
    · rcases Nat.le_total x a with h2 | h2
      · refine Or.inl ?_
        rw [List.foldl_cons, h]
        exact Nat.max_eq_left h2
      · refine Or.inr ?_
        rw [List.foldl_cons, h]
        have hx : Nat.max a x = x := Nat.max_eq_right h2
        rw [hx]
        exact List.mem_cons_self x xs
    · exact Or.inr (List.mem_cons_of_mem x (by rw [List.foldl_cons]; exact h))

theorem foldl_max_le (l : List ℕ) (a b : ℕ) (h : ∀ x ∈ l, x ≤ b) (ha : a ≤ b) :
    l.foldl Nat.max a ≤ b := by
  induction l generalizing a with
  | nil => exact ha
  | cons x xs ih =>
    rw [List.foldl_cons]
    exact ih (Nat.max a x) (fun y hy => h y (List.mem_cons_of_mem x hy))
      (Nat.max_le.2 ⟨ha, h x (List.mem_cons_self x xs)⟩)

/-- Every permutation's count is bounded by max_count. -/
theorem permMatchCount_le_max (oq t1 t2 : String) (sections : List String) :
    ∀ p ∈ permutations3 oq t1 t2,
      permMatchCount p sections ≤ maxMatchCount oq t1 t2 sections := by
  intro p hp
  refine le_foldl_max _ 0 _ ?_
  have h1 : (p, permMatchCount p sections) ∈ permScores oq t1 t2 sections :=
    List.mem_map_of_mem _ hp
  exact List.mem_map_of_mem (fun pc => pc.2) h1

/-- max_count is attained by some permutation. -/
theorem maxMatchCount_attained (oq t1 t2 : String) (sections : List String) :
    ∃ p ∈ permutations3 oq t1 t2,
      permMatchCount p sections = maxMatchCount oq t1 t2 sections := by
  rcases foldl_max_eq_or_mem ((permScores oq t1 t2 sections).map (fun pc => pc.2)) 0
    with h | h
  · refine ⟨(oq, t1, t2), by simp [permutations3], ?_⟩
    have h1 := permMatchCount_le_max oq t1 t2 sections (oq, t1, t2)
      (by simp [permutations3])
    have h2 : maxMatchCount oq t1 t2 sections = 0 := h
    omega
  · rcases List.mem_map.1 h with ⟨pc, hpc, hval⟩
    rcases List.mem_map.1 hpc with ⟨p, hp, hpe⟩
    exact ⟨p, hp, by rw [← hpe] at hval; exact hval⟩

/-- Membership in max_count_perms. -/
theorem mem_maxPerms_iff {oq t1 t2 : String} {sections : List String}
    {p : String × String × String} :
    p ∈ maxPerms oq t1 t2 sections ↔
      p ∈ permutations3 oq t1 t2
        ∧ permMatchCount p sections = maxMatchCount oq t1 t2 sections := by
  constructor
  · intro h
    rcases List.mem_map.1 h with ⟨pc, hpc, hpe⟩
    have h1 := List.mem_filter.1 hpc
    rcases List.mem_map.1 h1.1 with ⟨q, hq, hqe⟩
    have hq1 : pc.1 = q := by rw [← hqe]
    have hq2 : pc.2 = permMatchCount q sections := by rw [← hqe]
    have hcount : pc.2 = maxMatchCount oq t1 t2 sections := by
      have := h1.2
      simpa [beq_iff_eq] using this
    subst hpe
    rw [hq1]
    exact ⟨hq, by rw [← hq2, hcount]⟩
  · rintro ⟨hp, hc⟩
    have h1 : (p, permMatchCount p sections) ∈ permScores oq t1 t2 sections :=
      List.mem_map_of_mem _ hp
    have h2 : (p, permMatchCount p sections) ∈
        (permScores oq t1 t2 sections).filter
          (fun pc => pc.2 == maxMatchCount oq t1 t2 sections) :=
      List.mem_filter.2 ⟨h1, by simpa [beq_iff_eq] using hc⟩
    exact List.mem_map_of_mem (fun pc => pc.1) h2

theorem maxPerms_ne_nil (oq t1 t2 : String) (sections : List String) :
    maxPerms oq t1 t2 sections ≠ [] := by
  rcases maxMatchCount_attained oq t1 t2 sections with ⟨p, hp, hc⟩
  intro hnil
  have := mem_maxPerms_iff.2 ⟨hp, hc⟩
  rw [hnil] at this
  exact List.not_mem_nil p this

theorem bestPermutation_mem_maxPerms (oq t1 t2 : String) (sections : List String) :
    bestPermutation oq t1 t2 sections ∈ maxPerms oq t1 t2 sections := by
  cases hmp : maxPerms oq t1 t2 sections with
  | nil => exact absurd hmp (maxPerms_ne_nil oq t1 t2 sections)
  | cons q qs =>
    cases qs with
    | nil =>
      simp only [bestPermutation, hmp]
      exact List.mem_singleton.2 rfl
    | cons q2 qs2 =>
      simp only [bestPermutation, hmp]
      cases hf : (q :: q2 :: qs2).find? (fun r => r.1 == oq) with
      | none => exact List.mem_cons_self q (q2 :: qs2)
      | some r =>
        have hr := List.mem_of_find?_eq_some hf
        simpa using hr

/-- C5: the term-order optimization of main.py picks a permutation with
the maximal per-sentence match count; on a tie a permutation starting with
the original query is preferred, otherwise the first tied permutation in
generation order is taken; and when every permutation has zero matches the
result is the natural order (query, term1, term2). -/
theorem c5_best_permutation_rule (oq t1 t2 : String) (sections : List String) :
    bestPermutation oq t1 t2 sections ∈ permutations3 oq t1 t2
    ∧ (∀ p ∈ permutations3 oq t1 t2,
        permMatchCount p sections
          ≤ permMatchCount (bestPermutation oq t1 t2 sections) sections)
    ∧ ((∃ p ∈ maxPerms oq t1 t2 sections, p.1 = oq) →
        (bestPermutation oq t1 t2 sections).1 = oq)
    ∧ ((∀ p ∈ maxPerms oq t1 t2 sections, p.1 ≠ oq) →
        bestPermutation oq t1 t2 sections
          = (maxPerms oq t1 t2 sections).headD (oq, t1, t2))
    ∧ ((∀ p ∈ permutations3 oq t1 t2, permMatchCount p sections = 0) →
        bestPermutation oq t1 t2 sections = (oq, t1, t2)) := by
  have hbest := mem_maxPerms_iff.1 (bestPermutation_mem_maxPerms oq t1 t2 sections)
  refine ⟨hbest.1, ?_, ?_, ?_, ?_⟩
  · intro p hp
    rw [hbest.2]
    exact permMatchCount_le_max oq t1 t2 sections p hp
  · rintro ⟨p, hp, hp1⟩
    cases hmp : maxPerms oq t1 t2 sections with
    | nil =>
      rw [hmp] at hp
      exact absurd hp (List.not_mem_nil p)
    | cons q qs =>
      cases qs with
      | nil =>
        rw [hmp] at hp
        have hpq : p = q := by simpa using hp
        simp only [bestPermutation, hmp]
        exact hpq ▸ hp1
      | cons q2 qs2 =>
        simp only [bestPermutation, hmp]
        have hex : ∃ r, r ∈ (q :: q2 :: qs2) ∧ ((fun r => r.1 == oq) r) = true := by
          refine ⟨p, ?_, by simpa [beq_iff_eq] using hp1⟩
          rw [hmp] at hp
          exact hp
        have hsome : ((q :: q2 :: qs2).find? (fun r => r.1 == oq)).isSome =
            true := List.find?_isSome.2 hex
        cases hf : (q :: q2 :: qs2).find? (fun r => r.1 == oq) with
        | none => rw [hf] at hsome; exact Bool.noConfusion hsome
        | some r =>
          have hr := List.find?_some hf
          simpa [beq_iff_eq] using hr
  · intro hnone
    cases hmp : maxPerms oq t1 t2 sections with
    | nil => simp [bestPermutation, hmp]
    | cons q qs =>
      cases qs with
      | nil => simp [bestPermutation, hmp]
      | cons q2 qs2 =>
        simp only [bestPermutation, hmp, List.headD_cons]
        have hf : (q :: q2 :: qs2).find? (fun r => r.1 == oq) = none := by
          apply List.find?_eq_none.2
          intro x hx
          have := hnone x (hmp ▸ hx)
          simpa [beq_iff_eq] using this
        rw [hf]
        rfl
  · intro hzero
    have hmax0 : maxMatchCount oq t1 t2 sections = 0 := by
      have hle : maxMatchCount oq t1 t2 sections ≤ 0 := by
        apply foldl_max_le
        · intro x hx
          rcases List.mem_map.1 hx with ⟨pc, hpc, hval⟩
          rcases List.mem_map.1 hpc with ⟨p, hp, hpe⟩
          have : pc.2 = permMatchCount p sections := by rw [← hpe]
          rw [← hval, this, hzero p hp]
        · exact le_refl 0
      omega
    have hall : ((permScores oq t1 t2 sections).filter
        (fun pc => pc.2 == maxMatchCount oq t1 t2 sections))
          = permScores oq t1 t2 sections := by
      apply List.filter_eq_self.2
      intro pc hpc
      rcases List.mem_map.1 hpc with ⟨p, hp, hpe⟩
      have : pc.2 = permMatchCount p sections := by rw [← hpe]
      simp [this, hzero p hp, hmax0]
    have hperms : maxPerms oq t1 t2 sections = permutations3 oq t1 t2 := by
      rw [maxPerms, hall, permScores, List.map_map]
      exact List.map_id _
    have hperms2 : maxPerms oq t1 t2 sections
        = [(oq, t1, t2), (oq, t2, t1), (t1, oq, t2),
           (t1, t2, oq), (t2, oq, t1), (t2, t1, oq)] := by
      rw [hperms]
      rfl
    simp only [bestPermutation, hperms2]
    rw [List.find?_cons_of_pos _ (by simp)]
    rfl

/-- Witness for C5 at a concrete input: with one section reading a b c, the
tied-or-unique maximum contains a permutation starting with the query a,
and the chosen permutation indeed starts with a. -/
theorem c5_witness : (bestPermutation "a" "b" "c" ["a b c"]).1 = "a" :=
  (c5_best_permutation_rule "a" "b" "c" ["a b c"]).2.2.1 (by decide)

/-- Every listed permutation of the three query components is a
permutation of the natural order. -/
theorem perm3_perm (a b c : String) :
    ∀ p ∈ permutations3 a b c, List.Perm [p.1, p.2.1, p.2.2] [a, b, c] := by
  intro p hp
  simp only [permutations3, List.mem_cons, List.mem_singleton, List.not_mem_nil,
    or_false] at hp
  rcases hp with rfl | rfl | rfl | rfl | rfl | rfl
  · exact List.Perm.refl _
  · exact List.Perm.cons a (List.Perm.swap b c [])
  · exact List.Perm.swap a b [c]
  · exact (List.Perm.cons b (List.Perm.swap a c [])).trans (List.Perm.swap a b [c])
  · exact (List.Perm.swap a c [b]).trans (List.Perm.cons a (List.Perm.swap b c []))
  · exact ((List.Perm.swap b c [a]).trans
      (List.Perm.cons b (List.Perm.swap a c []))).trans (List.Perm.swap a b [c])

/-- C9: the expanded query consists of the original query text as one
contiguous component plus exactly the selected new terms joined by single
spaces, with no duplicate terms and no original term lost.  In main.py the
new query is the space-join of a permutation of (query, term1, term2) with
the two terms distinct and outside the query's tokens; in joann-3 the new
query is the original query followed by the duplicate-free selected terms,
none of which is a query token. -/
theorem c9_query_expansion_structure (ranked : List String) (oq t1 t2 : String)
    (rest sections : List String) (rel irr : List Result) (stop : List String) :
    (ranked.Nodup → mainNewTerms ranked oq = t1 :: t2 :: rest →
      ∃ p ∈ permutations3 oq t1 t2,
        mainNewQuery oq t1 t2 sections = joinSep " " [p.1, p.2.1, p.2.2]
        ∧ List.Perm [p.1, p.2.1, p.2.2] [oq, t1, t2]
        ∧ t1 ≠ t2 ∧ t1 ∉ tokenize oq ∧ t2 ∉ tokenize oq)
    ∧ (jo3NewQuery oq rel irr stop
        = oq ++ " " ++ joinSep " " (jo3Refine oq rel irr stop)
      ∧ (jo3Refine oq rel irr stop).Nodup
      ∧ ∀ u ∈ jo3Refine oq rel irr stop, u ∉ tokenize oq) := by
  constructor
  · intro hnd heq
    have hmem : bestPermutation oq t1 t2 sections ∈ permutations3 oq t1 t2 :=
      (mem_maxPerms_iff.1 (bestPermutation_mem_maxPerms oq t1 t2 sections)).1
    refine ⟨bestPermutation oq t1 t2 sections, hmem, rfl,
      perm3_perm oq t1 t2 _ hmem, ?_, ?_, ?_⟩
    · have h1 : (mainNewTerms ranked oq).Nodup := hnd.filter _
      rw [heq] at h1
      exact fun hc => (List.nodup_cons.1 h1).1 (hc ▸ List.mem_cons_self t2 rest)
    · refine mainNewTerms_excludes ranked oq t1 ?_
      rw [heq]
      exact List.mem_cons_self _ _
    · refine mainNewTerms_excludes ranked oq t2 ?_
      rw [heq]
      exact List.mem_cons_of_mem _ (List.mem_cons_self _ _)
  · exact ⟨rfl, jo3Refine_nodup oq rel irr stop, jo3Refine_excludes oq rel irr stop⟩

/-- Witness for C9 at a concrete input: the ranked candidates cat and fish
against the query dog. -/
theorem c9_witness :
    ∃ p ∈ permutations3 "dog" "cat" "fish",
      mainNewQuery "dog" "cat" "fish" [] = joinSep " " [p.1, p.2.1, p.2.2]
      ∧ List.Perm [p.1, p.2.1, p.2.2] ["dog", "cat", "fish"]
      ∧ "cat" ≠ "fish" ∧ "cat" ∉ tokenize "dog" ∧ "fish" ∉ tokenize "dog" :=
  (c9_query_expansion_structure ["cat", "fish"] "dog" "cat" "fish" [] [] [] [] []).1
    (by decide) (by decide)

/-! Monotonicity analysis of the joann-4 TF-IDF Rocchio score. -/

theorem count_append_replicate (t : String) (d : List String) (k : ℕ) :
    (d ++ List.replicate k t).count t = d.count t + k := by
  rw [List.count_append, List.count_replicate_self]

theorem dfIn_append_replicate (t : String) (l1 l2 : List (List String))
    (d : List String) (k : ℕ) (hd : d.count t ≠ 0) :
    dfIn t (l1 ++ (d ++ List.replicate k t) :: l2) = dfIn t (l1 ++ d :: l2) := by
  have hmem : t ∈ d := List.count_pos_iff.1 (Nat.pos_of_ne_zero hd)
  have h1 : (d.contains t) = true := by simpa using hmem
  have h2 : ((d ++ List.replicate k t).contains t) = true := by
    have : t ∈ d ++ List.replicate k t := List.mem_append.2 (Or.inl hmem)
    simpa using this
  simp [dfIn, List.countP_append, List.countP_cons, h1, h2, hmem]

theorem idfR_nonneg (numDocs dfc : ℕ) (hdfc : dfc ≤ numDocs) :
    0 ≤ idfR numDocs dfc := by
  rw [idfR]
  apply Real.log_nonneg
  rw [le_div_iff₀ (by positivity)]
  have : (dfc : ℝ) ≤ (numDocs : ℝ) := by exact_mod_cast hdfc
  linarith

theorem relContribution_mono (t : String) (numDocs dfc len : ℕ) (d : List String)
    (k : ℕ) (hd : d.count t ≠ 0) (hdfc : dfc ≤ numDocs) (hlen : 0 < len) :
    relContribution t numDocs dfc len d
      ≤ relContribution t numDocs dfc len (d ++ List.replicate k t) := by
  have hd2 : (d ++ List.replicate k t).count t ≠ 0 := by
    rw [count_append_replicate]
    omega
  rw [relContribution, relContribution, if_neg hd, if_neg hd2]
  have hidf : 0 ≤ idfR numDocs dfc := idfR_nonneg numDocs dfc hdfc
  have hc1 : (1 : ℝ) ≤ ((d.count t : ℕ) : ℝ) := by
    exact_mod_cast Nat.one_le_iff_ne_zero.2 hd
  have hlog : Real.log ((d.count t : ℕ) : ℝ)
      ≤ Real.log (((d ++ List.replicate k t).count t : ℕ) : ℝ) := by
    apply Real.log_le_log (by linarith)
    rw [count_append_replicate]
    push_cast
    linarith
  have h1 : (1 + Real.log ((d.count t : ℕ) : ℝ)) * idfR numDocs dfc
      ≤ (1 + Real.log (((d ++ List.replicate k t).count t : ℕ) : ℝ)) * idfR numDocs dfc :=
    mul_le_mul_of_nonneg_right (by linarith) hidf
  have h2 : (3 / 4 : ℝ) * ((1 + Real.log ((d.count t : ℕ) : ℝ)) * idfR numDocs dfc)
      ≤ (3 / 4 : ℝ) * ((1 + Real.log (((d ++ List.replicate k t).count t : ℕ) : ℝ))
          * idfR numDocs dfc) := by linarith
  have hlpos : (0 : ℝ) < (len : ℝ) := by exact_mod_cast hlen
  exact (div_le_div_iff_of_pos_right hlpos).2 h2

theorem irrContribution_mono (t : String) (numDocs dfc len : ℕ) (d : List String)
    (k : ℕ) (hd : d.count t ≠ 0) (hdfc : dfc ≤ numDocs) (hlen : 0 < len) :
    irrContribution t numDocs dfc len d
      ≤ irrContribution t numDocs dfc len (d ++ List.replicate k t) := by
  have hd2 : (d ++ List.replicate k t).count t ≠ 0 := by
    rw [count_append_replicate]
    omega
  rw [irrContribution, irrContribution, if_neg hd, if_neg hd2]
  have hidf : 0 ≤ idfR numDocs dfc := idfR_nonneg numDocs dfc hdfc
  have hc1 : (1 : ℝ) ≤ ((d.count t : ℕ) : ℝ) := by
    exact_mod_cast Nat.one_le_iff_ne_zero.2 hd
  have hlog : Real.log ((d.count t : ℕ) : ℝ)
      ≤ Real.log (((d ++ List.replicate k t).count t : ℕ) : ℝ) := by
    apply Real.log_le_log (by linarith)
    rw [count_append_replicate]
    push_cast
    linarith
  have h1 : (1 + Real.log ((d.count t : ℕ) : ℝ)) * idfR numDocs dfc
      ≤ (1 + Real.log (((d ++ List.replicate k t).count t : ℕ) : ℝ)) * idfR numDocs dfc :=
    mul_le_mul_of_nonneg_right (by linarith) hidf
  have h2 : (3 / 20 : ℝ) * ((1 + Real.log ((d.count t : ℕ) : ℝ)) * idfR numDocs dfc)
      ≤ (3 / 20 : ℝ) * ((1 + Real.log (((d ++ List.replicate k t).count t : ℕ) : ℝ))
          * idfR numDocs dfc) := by linarith
  have hlpos : (0 : ℝ) < (len : ℝ) := by exact_mod_cast hlen
  exact (div_le_div_iff_of_pos_right hlpos).2 h2

/-- C4 (amended): under the joann-4 TF-IDF Rocchio score, for a term
already occurring in the modified document (so that the document frequency
table is unchanged), raising its frequency in a relevant document never
decreases its score, and raising its frequency in an irrelevant document
never increases its score.  When the increase introduces the term into a
document that did not contain it, document frequency changes and the claim
fails (see the counterexample). -/
theorem c4_rocchio_monotone_with_present_term (t : String) (k : ℕ)
    (d : List String) (hd : d.count t ≠ 0) :
    (∀ (r1 r2 irr : List (List String)),
      jo4Score t (r1 ++ d :: r2) irr
        ≤ jo4Score t (r1 ++ (d ++ List.replicate k t) :: r2) irr)
    ∧ (∀ (i1 i2 rel : List (List String)),
      jo4Score t rel (i1 ++ (d ++ List.replicate k t) :: i2)
        ≤ jo4Score t rel (i1 ++ d :: i2)) := by
  constructor
  · intro r1 r2 irr
    have hN : (r1 ++ (d ++ List.replicate k t) :: r2).length
        = (r1 ++ d :: r2).length := by simp
    have hdf : dfIn t ((r1 ++ (d ++ List.replicate k t) :: r2) ++ irr)
        = dfIn t ((r1 ++ d :: r2) ++ irr) := by
      have h1 : (r1 ++ (d ++ List.replicate k t) :: r2) ++ irr
          = r1 ++ (d ++ List.replicate k t) :: (r2 ++ irr) := by simp
      have h2 : (r1 ++ d :: r2) ++ irr = r1 ++ d :: (r2 ++ irr) := by simp
      rw [h1, h2]
      exact dfIn_append_replicate t r1 (r2 ++ irr) d k hd
    have hdfc : dfIn t ((r1 ++ d :: r2) ++ irr)
        ≤ (r1 ++ d :: r2).length + irr.length := by
      have h : dfIn t ((r1 ++ d :: r2) ++ irr) ≤ ((r1 ++ d :: r2) ++ irr).length :=
        List.countP_le_length _
      rwa [List.length_append] at h
    have hlen : 0 < (r1 ++ d :: r2).length := by simp
    simp only [jo4Score, hN, hdf]
    apply sub_le_sub
    · rw [List.map_append, List.map_append, List.map_cons, List.map_cons,
        List.sum_append, List.sum_append, List.sum_cons, List.sum_cons]
      apply add_le_add_left
      apply add_le_add_right
      exact relContribution_mono t _ _ _ d k hd hdfc hlen
    · exact le_refl _
  · intro i1 i2 rel
    have hN : (i1 ++ (d ++ List.replicate k t) :: i2).length
        = (i1 ++ d :: i2).length := by simp
    have hdf : dfIn t (rel ++ (i1 ++ (d ++ List.replicate k t) :: i2))
        = dfIn t (rel ++ (i1 ++ d :: i2)) := by
      have h1 : rel ++ (i1 ++ (d ++ List.replicate k t) :: i2)
          = (rel ++ i1) ++ (d ++ List.replicate k t) :: i2 := by simp
      have h2 : rel ++ (i1 ++ d :: i2) = (rel ++ i1) ++ d :: i2 := by simp
      rw [h1, h2]
      exact dfIn_append_replicate t (rel ++ i1) i2 d k hd
    have hdfc : dfIn t (rel ++ (i1 ++ d :: i2))
        ≤ rel.length + (i1 ++ d :: i2).length := by
      have h : dfIn t (rel ++ (i1 ++ d :: i2)) ≤ (rel ++ (i1 ++ d :: i2)).length :=
        List.countP_le_length _
      rwa [List.length_append] at h
    have hlen : 0 < (i1 ++ d :: i2).length := by simp
    simp only [jo4Score, hN, hdf]
    apply sub_le_sub
    · exact le_refl _
    · rw [List.map_append, List.map_append, List.map_cons, List.map_cons,
        List.sum_append, List.sum_append, List.sum_cons, List.sum_cons]
      apply add_le_add_left
      apply add_le_add_right
      exact irrContribution_mono t _ _ _ d k hd hdfc hlen

/-- Witness for C4 at a concrete input: the term a occurs in the single
relevant document, and doubling its frequency there does not decrease its
score. -/
theorem c4_witness :
    (["a"] : List String).count "a" ≠ 0
    ∧ jo4Score "a" [["a"]] [] ≤ jo4Score "a" [["a", "a"]] [] := by
  refine ⟨by decide, ?_⟩
  have h := (c4_rocchio_monotone_with_present_term "a" 1 ["a"] (by decide)).1 [] [] []
  simpa using h

/-- Counterexample for C4 as stated: increasing the frequency of cat from
zero to one in the second relevant document (holding everything else
fixed) strictly decreases cat's score, because the introduction raises
cat's document frequency and drives the smoothed idf to zero. -/
theorem c4_counterexample :
    jo4Score "cat" [["cat"], ["dog", "cat"]] [] < jo4Score "cat" [["cat"], ["dog"]] [] := by
  have hl : jo4Score "cat" [["cat"], ["dog", "cat"]] [] = 0 := by
    have hdf : dfIn "cat" [["cat"], ["dog", "cat"]] = 2 := by decide
    have hidf : idfR 2 2 = 0 := by
      rw [idfR]
      norm_num
    simp [jo4Score, hdf, relContribution, hidf]
  have hr : jo4Score "cat" [["cat"], ["dog"]] []
      = (3 / 4 : ℝ) * ((1 + Real.log ((1 : ℕ) : ℝ)) * idfR 2 1) / ((2 : ℕ) : ℝ) := by
    have hdf : dfIn "cat" [["cat"], ["dog"]] = 1 := by decide
    have hc1 : (["cat"] : List String).count "cat" = 1 := by decide
    have hc2 : (["dog"] : List String).count "cat" = 0 := by decide
    simp [jo4Score, hdf, relContribution, hc1, hc2]
  rw [hl, hr]
  have hidf : 0 < idfR 2 1 := by
    rw [idfR]
    apply Real.log_pos
    norm_num
  have h1 : ((1 : ℕ) : ℝ) = 1 := by norm_num
  have h2 : ((2 : ℕ) : ℝ) = 2 := by norm_num
  rw [h1, h2, Real.log_one]
  linarith

/-- Counterexample for C3 as stated: in the joann-4 variant (which applies
no positivity filter) the term cat, occurring once in the relevant and
once in the irrelevant document, ends with final score exactly 0 (the
smoothed idf vanishes because cat occurs in every document), yet it is
selected as an expansion term. -/
theorem c3_counterexample :
    jo4Refine "dog" [⟨"u1", "cat", "", none⟩] [⟨"u2", "", "cat", none⟩] [] = ["cat"]
    ∧ getVal (jo4TermScores "dog" [⟨"u1", "cat", "", none⟩]
        [⟨"u2", "", "cat", none⟩] []) "cat" 0 ≤ 0 := by
  constructor
  · rfl
  · have hval : getVal (jo4TermScores "dog" [⟨"u1", "cat", "", none⟩]
        [⟨"u2", "", "cat", none⟩] []) "cat" 0
        = (3 / 4 : ℝ) * ((1 + Real.log ((1 : ℕ) : ℝ)) * idfR 2 2) / ((1 : ℕ) : ℝ)
          + -((3 / 20 : ℝ) * ((1 + Real.log ((1 : ℕ) : ℝ)) * idfR 2 2) / ((1 : ℕ) : ℝ)) := rfl
    have hidf : idfR 2 2 = 0 := by
      rw [idfR]
      norm_num
    rw [hval, hidf]
    norm_num

/-- Witness for C10 at a concrete input: the single HTML result judged y
lands in the relevant partition and not in the irrelevant one. -/
theorem c10_witness :
    ((⟨"u", "t", "s", none⟩ : Result) ∈
        (collectFeedback (fun _ => "y") [⟨"u", "t", "s", none⟩]).1 ↔
      (⟨"u", "t", "s", none⟩ : Result) ∉
        (collectFeedback (fun _ => "y") [⟨"u", "t", "s", none⟩]).2.1) :=
  (c10_feedback_partition (fun _ => "y") [⟨"u", "t", "s", none⟩]).2.2.1
    ⟨"u", "t", "s", none⟩ (by decide) (by decide)

end QueryRefine
